import Mathlib

/-!
# Verification of the spectral-comparison engine of the isomorfismo notebook

A shallow embedding, in Lean 4, of the computational core of the notebook
`isomorfismo.ipynb`: the four derived matrix representations (Laplacian,
normalized Laplacian, signless Laplacian, line-graph adjacency), the
canonical sorted spectrum, the tolerance-based cospectrality test
(`np.allclose`), and the per-pair report assembled by `compare_pair`.

Numerical floating-point values are modelled by exact ordered fields:
`ℚ` where decidable evaluation is wanted, `ℝ` where genuine square roots
and eigenvalues are involved.  Eigenvalues of a real matrix are modelled
as the multiset of complex roots of its characteristic polynomial.
numpy exceptions are modelled by `Option`/`none`.
-/

namespace Isomorfismo

open scoped BigOperators Matrix

/-- Shallow embedding of `np.allclose` restricted to 1-D arrays, over an
ordered field standing for IEEE floats.  It mirrors numpy broadcasting
between shapes `(n,)` and `(m,)`: equal lengths compare element-wise, a
length-one array is broadcast against the other, and any other pair of
lengths raises a broadcast `ValueError`, modelled by `none`.  The element
test is numpy's `|a - b| <= atol + rtol * |b|` with the default
tolerances `rtol = 1e-5`, `atol = 1e-8`. -/
def allclose {α : Type} [LinearOrderedField α] (s1 s2 : List α) : Option Bool :=
  if s1.length = s2.length then
    some ((s1.zip s2).all fun p =>
      decide (|p.1 - p.2| ≤ 1 / 100000000 + 1 / 100000 * |p.2|))
  else if s1.length = 1 then
    some (s2.all fun b =>
      decide (|s1.headD 0 - b| ≤ 1 / 100000000 + 1 / 100000 * |b|))
  else if s2.length = 1 then
    some (s1.all fun a =>
      decide (|a - s2.headD 0| ≤ 1 / 100000000 + 1 / 100000 * |s2.headD 0|))
  else none

/-- `A.sum(axis=1)`: the vector of row sums of a square matrix (the degree
of vertex `i` when `A` is an adjacency matrix). -/
def rowSums {I : Type} [Fintype I] (A : Matrix I I ℝ) (i : I) : ℝ :=
  ∑ j, A i j

/-- `laplacian(A) = np.diag(A.sum(axis=1)) - A`. -/
def laplacian {I : Type} [Fintype I] [DecidableEq I] (A : Matrix I I ℝ) :
    Matrix I I ℝ :=
  Matrix.diagonal (rowSums A) - A

/-- `signless_laplacian(A) = np.diag(A.sum(axis=1)) + A`. -/
def signless_laplacian {I : Type} [Fintype I] [DecidableEq I]
    (A : Matrix I I ℝ) : Matrix I I ℝ :=
  Matrix.diagonal (rowSums A) + A

/-- The diagonal vector `1 / np.sqrt(A.sum(axis=1))` after the notebook's
`D_inv_sqrt[np.isinf(D_inv_sqrt)] = 0` clean-up: over the non-negative
degrees arising from adjacency input, the float `1/sqrt(d)` is infinite
exactly when `d = 0`, so that entry is replaced by `0`. -/
noncomputable def dInvSqrt {I : Type} [Fintype I] (A : Matrix I I ℝ)
    (i : I) : ℝ :=
  if rowSums A i = 0 then 0 else 1 / Real.sqrt (rowSums A i)

/-- `normalized_laplacian(A) = D_inv_sqrt @ laplacian(A) @ D_inv_sqrt`. -/
noncomputable def normalized_laplacian {I : Type} [Fintype I] [DecidableEq I]
    (A : Matrix I I ℝ) : Matrix I I ℝ :=
  Matrix.diagonal (dInvSqrt A) * laplacian A * Matrix.diagonal (dInvSqrt A)

/-- The eigenvalue multiset of a real square matrix, as computed (in exact
arithmetic) by `np.linalg.eigvals`: the complex roots, with multiplicity,
of the characteristic polynomial. -/
noncomputable def eigenvalues {I : Type} [Fintype I] [DecidableEq I]
    (M : Matrix I I ℝ) : Multiset ℂ :=
  ((M.map Complex.ofReal).charpoly).roots

/-- `sorted_eigvals(A) = np.sort(np.linalg.eigvals(A).real)`: take the real
part of every eigenvalue (unconditionally, imaginary parts are discarded
with no magnitude check) and sort ascending. -/
noncomputable def sorted_eigvals {I : Type} [Fintype I] [DecidableEq I]
    (M : Matrix I I ℝ) : List ℝ :=
  ((eigenvalues M).map Complex.re).sort (· ≤ ·)

/-- Modelled from the spec: the edge set that the external graph collaborator
(`nx.from_numpy_array`) extracts from a square matrix — one undirected edge
per unordered vertex pair carrying a nonzero entry ("using nonzero entries
as edge indicators; undirected edges counted once"). -/
def edgePred {n : ℕ} (A : Matrix (Fin n) (Fin n) ℝ) (e : Sym2 (Fin n)) : Prop :=
  ∃ i j : Fin n, e = Sym2.mk (i, j) ∧ (A i j ≠ 0 ∨ A j i ≠ 0)

noncomputable instance edgeFintype {n : ℕ} (A : Matrix (Fin n) (Fin n) ℝ) :
    Fintype {e : Sym2 (Fin n) // edgePred A e} :=
  Fintype.ofFinite _

open Classical in
/-- Modelled from the spec: the adjacency matrix of the line graph produced
by the external collaborator (`nx.line_graph`) — one vertex per edge of the
original graph, with entry `1` exactly when the two edges are distinct and
share an endpoint. -/
noncomputable def lineGraphAdj {n : ℕ} (A : Matrix (Fin n) (Fin n) ℝ) :
    Matrix {e : Sym2 (Fin n) // edgePred A e} {e : Sym2 (Fin n) // edgePred A e} ℝ :=
  fun e f => if e.1 ≠ f.1 ∧ ∃ v, v ∈ e.1 ∧ v ∈ f.1 then 1 else 0

/-- `compare_pair`: derive all five representations of both input adjacency
matrices, reduce each to its canonical sorted spectrum, and classify each
same-representation pair with `np.allclose`, in the notebook's fixed
five-entry order.  The verdict is `some true` ("cospettrali"),
`some false` ("diversi"), or `none` when `np.allclose` raises. -/
noncomputable def compare_pair {n m : ℕ} (A1 : Matrix (Fin n) (Fin n) ℝ)
    (A2 : Matrix (Fin m) (Fin m) ℝ) : List (String × Option Bool) :=
  [("Adjacency A", allclose (sorted_eigvals A1) (sorted_eigvals A2)),
   ("Laplacian L", allclose (sorted_eigvals (laplacian A1))
      (sorted_eigvals (laplacian A2))),
   ("Normalized L", allclose (sorted_eigvals (normalized_laplacian A1))
      (sorted_eigvals (normalized_laplacian A2))),
   ("Signless |L|", allclose (sorted_eigvals (signless_laplacian A1))
      (sorted_eigvals (signless_laplacian A2))),
   ("Line‑graph A", allclose (sorted_eigvals (lineGraphAdj A1))
      (sorted_eigvals (lineGraphAdj A2)))]

/-- The permutation matrix of `σ`: entry `(i, j)` is `1` iff `i = σ j`, so
that `Pᵀ A P` is the simultaneous row/column relabeling `A (σ i) (σ j)`. -/
def permMatrix {n : ℕ} (σ : Equiv.Perm (Fin n)) : Matrix (Fin n) (Fin n) ℝ :=
  fun i j => if i = σ j then 1 else 0

/-- The permutation of unordered vertex pairs induced by a vertex
permutation. -/
def sym2Perm {n : ℕ} (σ : Equiv.Perm (Fin n)) : Sym2 (Fin n) ≃ Sym2 (Fin n) where
  toFun := Sym2.map ⇑σ
  invFun := Sym2.map ⇑σ.symm
  left_inv e := by rw [Sym2.map_map, Equiv.symm_comp_self, Sym2.map_id]; rfl
  right_inv e := by rw [Sym2.map_map, Equiv.self_comp_symm, Sym2.map_id]; rfl

/-- A vertex permutation induces a bijection between the edges of the
relabelled matrix and the edges of the original matrix. -/
def edgeEquiv {n : ℕ} (σ : Equiv.Perm (Fin n)) (A : Matrix (Fin n) (Fin n) ℝ) :
    {e : Sym2 (Fin n) // edgePred (A.submatrix ⇑σ ⇑σ) e} ≃
      {e : Sym2 (Fin n) // edgePred A e} :=
  Equiv.subtypeEquiv (sym2Perm σ) (by
    intro e
    constructor
    · rintro ⟨i, j, rfl, h⟩
      exact ⟨σ i, σ j, by simp [sym2Perm, Sym2.map_pair_eq], by simpa using h⟩
    · rintro ⟨i, j, hmap, h⟩
      refine ⟨σ.symm i, σ.symm j, ?_, by simpa using h⟩
      have hcongr := congrArg (Sym2.map ⇑σ.symm) hmap
      rw [show Sym2.map ⇑σ.symm (sym2Perm σ e) = e from (sym2Perm σ).left_inv e,
        Sym2.map_pair_eq] at hcongr
      exact hcongr)

/-- A numpy 2-D array, as a list of rows over an exact field standing for
IEEE floats.  Well-formed arrays are rectangular (`np.asarray` rejects
ragged nested lists). -/
abbrev NDArray (α : Type) : Type := List (List α)

/-- The column count of a 2-D array: the length of its first row. -/
def ncols {α : Type} (A : NDArray α) : ℕ := (List.headD A []).length

/-- Rectangularity: every row has the common length `ncols`. -/
def IsRect {α : Type} (A : NDArray α) : Prop :=
  ∀ r ∈ (A : List (List α)), r.length = ncols A

/-- numpy broadcasting of one axis: dimensions agree, or one of them is `1`
and is stretched to the other; otherwise a `ValueError` (`none`). -/
def bdim (a b : ℕ) : Option ℕ :=
  if a = b then some a else if a = 1 then some b else if b = 1 then some a else none

/-- Reading entry `(i, j)` of an array under broadcasting: an axis of
extent `1` always yields its only index. -/
def bGet {α : Type} [Zero α] (A : NDArray α) (i j : ℕ) : α :=
  let r := if (A : List (List α)).length = 1 then List.headD A []
    else List.getD A i []
  if r.length = 1 then r.headD 0 else r.getD j 0

/-- An `m × k` array built from an entry function. -/
def npGrid {α : Type} (m k : ℕ) (f : ℕ → ℕ → α) : NDArray α :=
  (List.range m).map fun i => (List.range k).map fun j => f i j

/-- An element-wise binary operation on two 2-D arrays under numpy
broadcasting; `none` models the broadcast `ValueError`. -/
def npBinop {α : Type} [Zero α] (f : α → α → α) (A B : NDArray α) :
    Option (NDArray α) :=
  match bdim (A : List (List α)).length (B : List (List α)).length,
      bdim (ncols A) (ncols B) with
  | some m, some k => some (npGrid m k fun i j => f (bGet A i j) (bGet B i j))
  | _, _ => none

/-- `A.sum(axis=1)` on a 2-D array. -/
def rowSumsL {α : Type} [AddCommMonoid α] (A : NDArray α) : List α :=
  List.map List.sum A

/-- `np.diag(d)`: the square diagonal array of a vector. -/
def npDiag {α : Type} [Zero α] (d : List α) : NDArray α :=
  npGrid d.length d.length fun i j => if i = j then d.getD i 0 else 0

/-- `laplacian` on a raw (possibly non-square) array:
`np.diag(A.sum(axis=1)) - A`, with numpy broadcasting semantics for the
subtraction. -/
def laplacianL {α : Type} [LinearOrderedField α] (A : NDArray α) :
    Option (NDArray α) :=
  npBinop (· - ·) (npDiag (rowSumsL A)) A

/-- `signless_laplacian` on a raw (possibly non-square) array:
`np.diag(A.sum(axis=1)) + A`, with numpy broadcasting semantics. -/
def signless_laplacianL {α : Type} [LinearOrderedField α] (A : NDArray α) :
    Option (NDArray α) :=
  npBinop (· + ·) (npDiag (rowSumsL A)) A

/-- `np.matmul` of two 2-D arrays: defined only when the inner dimensions
agree, otherwise a `ValueError` (`none`). -/
def npMatmul {α : Type} [LinearOrderedField α] (A B : NDArray α) :
    Option (NDArray α) :=
  if ncols A = (B : List (List α)).length then
    some (npGrid (A : List (List α)).length (ncols B) fun i j =>
      (((List.range (ncols A)).map fun l =>
        (List.getD A i []).getD l 0 * (List.getD B l []).getD j 0).sum))
  else none

open Classical in
/-- The vector `1 / np.sqrt(A.sum(axis=1))` with infinite entries (a zero
row sum) replaced by `0`, on a raw array. -/
noncomputable def dInvSqrtL (A : NDArray ℝ) : List ℝ :=
  (rowSumsL A).map fun x => if x = 0 then 0 else 1 / Real.sqrt x

/-- `normalized_laplacian` on a raw (possibly non-square) array:
`D_inv_sqrt @ laplacian(A) @ D_inv_sqrt`, propagating any shape error. -/
noncomputable def normalized_laplacianL (A : NDArray ℝ) : Option (NDArray ℝ) :=
  (laplacianL A).bind fun L =>
    (npMatmul (npDiag (dInvSqrtL A)) L).bind fun M =>
      npMatmul M (npDiag (dInvSqrtL A))

/-- The square matrix represented by a rectangular square array. -/
def toMatrixL (A : NDArray ℝ) :
    Matrix (Fin (A : List (List ℝ)).length) (Fin (A : List (List ℝ)).length) ℝ :=
  fun i j => (List.getD A i []).getD j 0

/-- `sorted_eigvals` on a raw array: `np.linalg.eigvals` raises
`LinAlgError` (`none`) unless the last two dimensions are square. -/
noncomputable def sorted_eigvalsL (A : NDArray ℝ) : Option (List ℝ) :=
  if ncols A = (A : List (List ℝ)).length then some (sorted_eigvals (toMatrixL A))
  else none

/-! ## Theorems -/

/-- On arrays whose lengths differ and are both different from `1`,
`np.allclose` raises a broadcast error (`none`). -/
theorem allclose_eq_none {α : Type} [LinearOrderedField α] (s1 s2 : List α)
    (hne : s1.length ≠ s2.length) (h1 : s1.length ≠ 1) (h2 : s2.length ≠ 1) :
    allclose s1 s2 = none := by
  simp [allclose, hne, h1, h2]

/-- Claim C5: on spectra of equal length, the cospectrality test accepts
exactly when every index satisfies the combined tolerance bound
`|a - b| ≤ atol + rtol * |b|` with `atol = 1e-8` and `rtol = 1e-5`. -/
theorem allclose_eq_some_iff {α : Type} [LinearOrderedField α]
    (s1 s2 : List α) (h : s1.length = s2.length) :
    allclose s1 s2 = some true ↔
      ∀ (i : ℕ) (h1 : i < s1.length) (h2 : i < s2.length),
        |s1[i] - s2[i]| ≤ 1 / 100000000 + 1 / 100000 * |s2[i]| := by
  rw [allclose, if_pos h]
  rw [Option.some_inj, List.all_eq_true]
  constructor
  · intro hall i h1 h2
    have hi : i < (s1.zip s2).length := by
      rw [List.length_zip]; omega
    have hmem : (s1[i], s2[i]) ∈ s1.zip s2 := by
      have hz : (s1.zip s2)[i] = (s1[i], s2[i]) := List.getElem_zip
      rw [← hz]
      exact List.getElem_mem hi
    simpa using hall _ hmem
  · intro hp p hmem
    obtain ⟨i, hi, hget⟩ := List.mem_iff_getElem.mp hmem
    have h1 : i < s1.length := by
      rw [List.length_zip] at hi; omega
    have h2 : i < s2.length := by
      rw [List.length_zip] at hi; omega
    have hz : (s1.zip s2)[i] = (s1[i], s2[i]) := List.getElem_zip
    rw [hz] at hget
    subst hget
    simpa using hp i h1 h2

/-- Concrete instantiation of claim C5 at a two-element spectrum pair. -/
theorem allclose_eq_some_iff_witness :
    allclose ([0, 2] : List ℚ) [1 / 100000000, 2] = some true ↔
      ∀ (i : ℕ) (h1 : i < ([0, 2] : List ℚ).length)
        (h2 : i < ([1 / 100000000, 2] : List ℚ).length),
        |([0, 2] : List ℚ)[i] - ([1 / 100000000, 2] : List ℚ)[i]| ≤
          1 / 100000000 + 1 / 100000 * |([1 / 100000000, 2] : List ℚ)[i]| :=
  allclose_eq_some_iff _ _ (by decide)

/-- Claim C9: the cospectrality test is not symmetric — the relative
tolerance scales with the second argument only, so a pair of equal-length
sorted spectra can compare `true` one way and `false` the other. -/
theorem allclose_not_symmetric :
    ∃ s1 s2 : List ℚ, s1.length = s2.length ∧
      List.Sorted (· ≤ ·) s1 ∧ List.Sorted (· ≤ ·) s2 ∧
      allclose s1 s2 ≠ allclose s2 s1 := by
  refine ⟨[1], [1 + 1001 / 99999000], rfl, by simp, by simp, ?_⟩
  have hd : |(1 : ℚ) - (1 + 1001 / 99999000)| = 1001 / 99999000 := by
    rw [show (1 : ℚ) - (1 + 1001 / 99999000) = -(1001 / 99999000) by ring,
      abs_neg, abs_of_nonneg (by norm_num)]
  have hd2 : |(1 : ℚ) + 1001 / 99999000 - 1| = 1001 / 99999000 := by
    rw [show (1 : ℚ) + 1001 / 99999000 - 1 = 1001 / 99999000 by ring,
      abs_of_nonneg (by norm_num)]
  have h12 : allclose [(1 : ℚ)] [1 + 1001 / 99999000] = some true := by
    simp only [allclose, List.length_cons, List.length_nil, List.zip_cons_cons,
      List.zip_nil_right, List.all_cons, List.all_nil, if_pos rfl,
      Bool.and_true, Option.some_inj, decide_eq_true_eq]
    rw [hd, abs_of_nonneg (show (0 : ℚ) ≤ 1 + 1001 / 99999000 by norm_num)]
    norm_num
  have h21 : allclose [(1 : ℚ) + 1001 / 99999000] [1] = some false := by
    simp only [allclose, List.length_cons, List.length_nil, List.zip_cons_cons,
      List.zip_nil_right, List.all_cons, List.all_nil, if_pos rfl,
      Bool.and_true, Option.some_inj, decide_eq_false_iff_not,
      decide_eq_true_eq]
    rw [hd2, abs_one]
    norm_num
  rw [h12, h21]
  simp

/-- Entry-wise description of `normalized_laplacian`. -/
theorem normalized_laplacian_apply {I : Type} [Fintype I] [DecidableEq I]
    (A : Matrix I I ℝ) (a b : I) :
    normalized_laplacian A a b = dInvSqrt A a * laplacian A a b * dInvSqrt A b := by
  simp [normalized_laplacian, Matrix.diagonal_mul, Matrix.mul_diagonal]

/-- `sorted_eigvals` always returns as many values as the matrix dimension:
over `ℂ` the characteristic polynomial, which is monic of degree `card I`,
splits completely. -/
theorem sorted_eigvals_length {I : Type} [Fintype I] [DecidableEq I]
    (M : Matrix I I ℝ) : (sorted_eigvals M).length = Fintype.card I := by
  rw [sorted_eigvals, Multiset.length_sort, Multiset.card_map]
  rw [eigenvalues,
    Polynomial.splits_iff_card_roots.mp (IsAlgClosed.splits_codomain _)]
  simp

/-- Claim C3: the Laplacian is the degree diagonal minus the matrix and the
signless Laplacian is the degree diagonal plus the matrix, where the degree
vector is the vector of row sums. -/
theorem laplacian_and_signless_def {I : Type} [Fintype I] [DecidableEq I]
    (A : Matrix I I ℝ) :
    (∀ i, rowSums A i = ∑ j, A i j) ∧
    laplacian A = Matrix.diagonal (rowSums A) - A ∧
    signless_laplacian A = Matrix.diagonal (rowSums A) + A ∧
    (∀ i j, laplacian A i j = (if i = j then rowSums A i else 0) - A i j) ∧
    (∀ i j, signless_laplacian A i j = (if i = j then rowSums A i else 0) + A i j) := by
  refine ⟨fun i => rfl, rfl, rfl, fun i j => ?_, fun i j => ?_⟩ <;>
    simp [laplacian, signless_laplacian, Matrix.sub_apply, Matrix.add_apply,
      Matrix.diagonal_apply]

/-- Claim C4: `sorted_eigvals` returns exactly `card I` real numbers, sorted
ascending, and as a multiset they are precisely the real parts of all the
eigenvalues of the matrix (imaginary parts discarded unconditionally). -/
theorem sorted_eigvals_spec {I : Type} [Fintype I] [DecidableEq I]
    (M : Matrix I I ℝ) :
    (sorted_eigvals M).length = Fintype.card I ∧
    List.Sorted (· ≤ ·) (sorted_eigvals M) ∧
    (↑(sorted_eigvals M) : Multiset ℝ) = (eigenvalues M).map Complex.re :=
  ⟨sorted_eigvals_length M, Multiset.sort_sorted _ _, Multiset.sort_eq _ _⟩

/-- Claim C10: every row of the Laplacian sums to zero, equivalently the
Laplacian annihilates the all-ones vector, hence `0` is a root of its
characteristic polynomial (an eigenvalue) whenever the matrix is nonempty. -/
theorem laplacian_row_sums_zero {n : ℕ} (A : Matrix (Fin n) (Fin n) ℝ)
    (hn : 0 < n) :
    (∀ i, ∑ j, laplacian A i j = 0) ∧
    (laplacian A).mulVec (fun _ => 1) = 0 ∧
    (laplacian A).charpoly.IsRoot 0 := by
  have hrow : ∀ i, ∑ j, laplacian A i j = 0 := by
    intro i
    simp [laplacian, Matrix.sub_apply, Matrix.diagonal_apply,
      Finset.sum_sub_distrib, rowSums]
  have hmul : (laplacian A).mulVec (fun _ => 1) = 0 := by
    funext i
    simpa [Matrix.mulVec, Matrix.dotProduct] using hrow i
  have hdet : (laplacian A).det = 0 := by
    by_contra hne
    have hone := congrFun (Matrix.eq_zero_of_mulVec_eq_zero hne hmul) ⟨0, hn⟩
    norm_num at hone
  refine ⟨hrow, hmul, ?_⟩
  have hc := Matrix.det_eq_sign_charpoly_coeff (laplacian A)
  rw [hdet] at hc
  have hco : (laplacian A).charpoly.coeff 0 = 0 := by
    rcases mul_eq_zero.mp hc.symm with h | h
    · exact absurd h (by positivity)
    · exact h
  rwa [Polynomial.coeff_zero_eq_eval_zero] at hco

/-- Concrete instantiation of claim C10 at the `2 × 2` adjacency matrix of a
single edge. -/
theorem laplacian_row_sums_zero_witness :
    (∀ i, ∑ j, laplacian (Matrix.of ![![0, 1], ![1, 0]] : Matrix (Fin 2) (Fin 2) ℝ) i j = 0) ∧
    (laplacian (Matrix.of ![![0, 1], ![1, 0]] : Matrix (Fin 2) (Fin 2) ℝ)).mulVec (fun _ => 1) = 0 ∧
    (laplacian (Matrix.of ![![0, 1], ![1, 0]] : Matrix (Fin 2) (Fin 2) ℝ)).charpoly.IsRoot 0 :=
  laplacian_row_sums_zero _ (by norm_num)

/-- Claim C6: on a matrix with non-negative entries, an isolated vertex
(row sum zero) produces an exactly-zero row and column of the normalized
Laplacian — in this exact-real model every entry is a well-defined real
number, there is no `NaN`/`Inf` to propagate — and on vertices of positive
degree the entries are those of `diag(s) @ laplacian(A) @ diag(s)` with
`s = 1/sqrt(degree)`. -/
theorem normalized_laplacian_isolated {n : ℕ} (A : Matrix (Fin n) (Fin n) ℝ)
    (hpos : ∀ i j, 0 ≤ A i j) (i : Fin n) (hdeg : rowSums A i = 0) :
    (∀ j, normalized_laplacian A i j = 0) ∧
    (∀ j, normalized_laplacian A j i = 0) ∧
    (∀ a b, 0 < rowSums A a → 0 < rowSums A b →
      normalized_laplacian A a b =
        1 / Real.sqrt (rowSums A a) * laplacian A a b *
          (1 / Real.sqrt (rowSums A b))) := by
  have hzero : dInvSqrt A i = 0 := by simp [dInvSqrt, hdeg]
  refine ⟨fun j => ?_, fun j => ?_, fun a b ha hb => ?_⟩
  · rw [normalized_laplacian_apply, hzero]; ring
  · rw [normalized_laplacian_apply, hzero]; ring
  · rw [normalized_laplacian_apply, dInvSqrt, dInvSqrt,
      if_neg (ne_of_gt ha), if_neg (ne_of_gt hb)]

/-- Concrete instantiation of claim C6 at the triangle-plus-isolated-vertex
matrix from the notebook, whose vertex `3` is isolated. -/
theorem normalized_laplacian_isolated_witness :
    (∀ j, normalized_laplacian
        (Matrix.of ![![0,1,1,0], ![1,0,1,0], ![1,1,0,0], ![0,0,0,0]] :
          Matrix (Fin 4) (Fin 4) ℝ) 3 j = 0) ∧
    (∀ j, normalized_laplacian
        (Matrix.of ![![0,1,1,0], ![1,0,1,0], ![1,1,0,0], ![0,0,0,0]] :
          Matrix (Fin 4) (Fin 4) ℝ) j 3 = 0) ∧
    (∀ a b, 0 < rowSums (Matrix.of ![![0,1,1,0], ![1,0,1,0], ![1,1,0,0], ![0,0,0,0]] :
          Matrix (Fin 4) (Fin 4) ℝ) a →
      0 < rowSums (Matrix.of ![![0,1,1,0], ![1,0,1,0], ![1,1,0,0], ![0,0,0,0]] :
          Matrix (Fin 4) (Fin 4) ℝ) b →
      normalized_laplacian (Matrix.of ![![0,1,1,0], ![1,0,1,0], ![1,1,0,0], ![0,0,0,0]] :
          Matrix (Fin 4) (Fin 4) ℝ) a b =
        1 / Real.sqrt (rowSums (Matrix.of ![![0,1,1,0], ![1,0,1,0], ![1,1,0,0], ![0,0,0,0]] :
          Matrix (Fin 4) (Fin 4) ℝ) a) *
          laplacian (Matrix.of ![![0,1,1,0], ![1,0,1,0], ![1,1,0,0], ![0,0,0,0]] :
            Matrix (Fin 4) (Fin 4) ℝ) a b *
          (1 / Real.sqrt (rowSums (Matrix.of ![![0,1,1,0], ![1,0,1,0], ![1,1,0,0], ![0,0,0,0]] :
            Matrix (Fin 4) (Fin 4) ℝ) b))) :=
  normalized_laplacian_isolated _
    (by intro a b; fin_cases a <;> fin_cases b <;> norm_num)
    3 (by norm_num [rowSums, Fin.sum_univ_four])

/-- Claim C7: the report of `compare_pair` covers exactly the five
representations, in the fixed order adjacency, Laplacian, normalized
Laplacian, signless Laplacian, line-graph adjacency, with none omitted or
repeated. -/
theorem compare_pair_report {n m : ℕ} (A1 : Matrix (Fin n) (Fin n) ℝ)
    (A2 : Matrix (Fin m) (Fin m) ℝ) :
    (compare_pair A1 A2).map Prod.fst =
      ["Adjacency A", "Laplacian L", "Normalized L", "Signless |L|",
        "Line‑graph A"] ∧
    (compare_pair A1 A2).length = 5 ∧
    ((compare_pair A1 A2).map Prod.fst).Nodup := by
  refine ⟨rfl, rfl, ?_⟩
  rw [show (compare_pair A1 A2).map Prod.fst =
    ["Adjacency A", "Laplacian L", "Normalized L", "Signless |L|",
      "Line‑graph A"] from rfl]
  decide

/-- Claim C1 is false as stated: on spectra of different lengths (neither
of length one) the `np.allclose` comparison does not return a verdict at
all — it raises a broadcast error, modelled by `none` — rather than
returning `false`. -/
theorem allclose_length_mismatch_counterexample :
    allclose ([0, 0, 0] : List ℚ) [0, 0] = none ∧
    allclose ([0, 0, 0] : List ℚ) [0, 0] ≠ some false :=
  ⟨rfl, by simp [allclose]⟩

/-- Claim C1, amended: on spectra of different lengths the comparison
raises a broadcast error (`none`) whenever neither length is `1` — it never
returns `false` there — and consequently comparing two adjacency matrices
of differing dimensions (both at least `2`) makes the top-level adjacency
verdict an error rather than "Distinct". -/
theorem allclose_length_mismatch_amended :
    (∀ s1 s2 : List ℚ, s1.length ≠ s2.length → s1.length ≠ 1 →
      s2.length ≠ 1 → allclose s1 s2 = none) ∧
    (∀ (n m : ℕ) (A1 : Matrix (Fin n) (Fin n) ℝ)
      (A2 : Matrix (Fin m) (Fin m) ℝ), n ≠ m → n ≠ 1 → m ≠ 1 →
      (compare_pair A1 A2).head? = some ("Adjacency A", none)) := by
  refine ⟨fun s1 s2 => allclose_eq_none s1 s2, ?_⟩
  intro n m A1 A2 hnm hn hm
  have h : allclose (sorted_eigvals A1) (sorted_eigvals A2) = none := by
    refine allclose_eq_none _ _ ?_ ?_ ?_ <;>
      simp [sorted_eigvals_length, hnm, hn, hm]
  simp [compare_pair, h]

/-- Concrete instantiation of the amended claim C1: length 3 versus
length 2, and two zero adjacency matrices of dimensions 3 and 2. -/
theorem allclose_length_mismatch_amended_witness :
    allclose ([1, 1, 1] : List ℚ) [1, 1] = none ∧
    (compare_pair (0 : Matrix (Fin 3) (Fin 3) ℝ)
      (0 : Matrix (Fin 2) (Fin 2) ℝ)).head? = some ("Adjacency A", none) :=
  ⟨allclose_length_mismatch_amended.1 _ _ (by decide) (by decide) (by decide),
   allclose_length_mismatch_amended.2 3 2 0 0 (by decide) (by decide) (by decide)⟩

/-- Conjugating by a permutation matrix relabels rows and columns
simultaneously: `(Pᵀ A P) i j = A (σ i) (σ j)`. -/
theorem permConj {n : ℕ} (σ : Equiv.Perm (Fin n)) (A : Matrix (Fin n) (Fin n) ℝ) :
    (permMatrix σ)ᵀ * A * permMatrix σ = A.submatrix ⇑σ ⇑σ := by
  ext i j
  simp [Matrix.mul_apply, permMatrix, Matrix.transpose_apply,
    Matrix.submatrix_apply, mul_ite, ite_mul, mul_zero, zero_mul, mul_one,
    one_mul, Finset.sum_ite_eq, Finset.sum_ite_eq']

/-- The characteristic polynomial is invariant under a simultaneous
row/column reindexing along an equivalence. -/
theorem charpoly_submatrix_equiv {R : Type} [CommRing R] {I J : Type}
    [Fintype I] [DecidableEq I] [Fintype J] [DecidableEq J]
    (e : I ≃ J) (M : Matrix J J R) :
    (M.submatrix ⇑e ⇑e).charpoly = M.charpoly := by
  have h := Matrix.charpoly_reindex e.symm M
  rwa [Matrix.reindex_apply, Equiv.symm_symm] at h

/-- The canonical sorted spectrum is invariant under a simultaneous
row/column reindexing along an equivalence. -/
theorem sorted_eigvals_submatrix {I J : Type}
    [Fintype I] [DecidableEq I] [Fintype J] [DecidableEq J]
    (e : I ≃ J) (M : Matrix J J ℝ) :
    sorted_eigvals (M.submatrix ⇑e ⇑e) = sorted_eigvals M := by
  unfold sorted_eigvals eigenvalues
  rw [show (M.submatrix ⇑e ⇑e).map Complex.ofReal =
    (M.map Complex.ofReal).submatrix ⇑e ⇑e from rfl]
  rw [charpoly_submatrix_equiv e]

/-- Row sums are equivariant under simultaneous reindexing. -/
theorem rowSums_submatrix {I J : Type} [Fintype I] [Fintype J]
    (e : I ≃ J) (A : Matrix J J ℝ) (i : I) :
    rowSums (A.submatrix ⇑e ⇑e) i = rowSums A (e i) := by
  unfold rowSums
  exact Equiv.sum_comp e fun j => A (e i) j

/-- Reindexing a diagonal matrix along an equivalence is the diagonal of the
reindexed vector. -/
theorem diagonal_submatrix {I J : Type} [DecidableEq I] [DecidableEq J]
    (e : I ≃ J) (d : J → ℝ) :
    (Matrix.diagonal d).submatrix ⇑e ⇑e = Matrix.diagonal fun i => d (e i) := by
  ext i j
  simp only [Matrix.submatrix_apply, Matrix.diagonal_apply,
    Equiv.apply_eq_iff_eq]

/-- The Laplacian is equivariant under simultaneous reindexing. -/
theorem laplacian_submatrix {I J : Type} [Fintype I] [DecidableEq I]
    [Fintype J] [DecidableEq J] (e : I ≃ J) (A : Matrix J J ℝ) :
    laplacian (A.submatrix ⇑e ⇑e) = (laplacian A).submatrix ⇑e ⇑e := by
  ext i j
  simp [laplacian, Matrix.sub_apply, Matrix.submatrix_apply,
    Matrix.diagonal_apply, Equiv.apply_eq_iff_eq, rowSums_submatrix]

/-- The signless Laplacian is equivariant under simultaneous reindexing. -/
theorem signless_laplacian_submatrix {I J : Type} [Fintype I] [DecidableEq I]
    [Fintype J] [DecidableEq J] (e : I ≃ J) (A : Matrix J J ℝ) :
    signless_laplacian (A.submatrix ⇑e ⇑e) =
      (signless_laplacian A).submatrix ⇑e ⇑e := by
  ext i j
  simp [signless_laplacian, Matrix.add_apply, Matrix.submatrix_apply,
    Matrix.diagonal_apply, Equiv.apply_eq_iff_eq, rowSums_submatrix]

/-- The inverse-square-root degree vector is equivariant under simultaneous
reindexing. -/
theorem dInvSqrt_submatrix {I J : Type} [Fintype I] [Fintype J]
    (e : I ≃ J) (A : Matrix J J ℝ) (i : I) :
    dInvSqrt (A.submatrix ⇑e ⇑e) i = dInvSqrt A (e i) := by
  simp [dInvSqrt, rowSums_submatrix]

/-- The normalized Laplacian is equivariant under simultaneous reindexing. -/
theorem normalized_laplacian_submatrix {I J : Type} [Fintype I] [DecidableEq I]
    [Fintype J] [DecidableEq J] (e : I ≃ J) (A : Matrix J J ℝ) :
    normalized_laplacian (A.submatrix ⇑e ⇑e) =
      (normalized_laplacian A).submatrix ⇑e ⇑e := by
  unfold normalized_laplacian
  have hd : Matrix.diagonal (dInvSqrt (A.submatrix ⇑e ⇑e)) =
      (Matrix.diagonal (dInvSqrt A)).submatrix ⇑e ⇑e := by
    rw [diagonal_submatrix]
    exact congrArg _ (funext fun i => dInvSqrt_submatrix e A i)
  rw [hd, laplacian_submatrix, Matrix.submatrix_mul_equiv,
    Matrix.submatrix_mul_equiv]

/-- The line-graph adjacency matrix of the relabelled matrix is the
reindexing, along the induced edge bijection, of the line-graph adjacency
matrix of the original. -/
theorem lineGraphAdj_submatrix {n : ℕ} (σ : Equiv.Perm (Fin n))
    (A : Matrix (Fin n) (Fin n) ℝ) :
    lineGraphAdj (A.submatrix ⇑σ ⇑σ) =
      (lineGraphAdj A).submatrix (edgeEquiv σ A) (edgeEquiv σ A) := by
  ext e f
  simp only [lineGraphAdj, Matrix.submatrix_apply]
  have hcoe : ∀ g : {e : Sym2 (Fin n) // edgePred (A.submatrix ⇑σ ⇑σ) e},
      ((edgeEquiv σ A) g).1 = Sym2.map ⇑σ g.1 := fun g => rfl
  refine if_congr ?_ rfl rfl
  rw [hcoe e, hcoe f]
  constructor
  · rintro ⟨hne, v, hv1, hv2⟩
    refine ⟨fun hc => hne ((Sym2.map.injective σ.injective) hc), σ v, ?_, ?_⟩
    · exact Sym2.mem_map.mpr ⟨v, hv1, rfl⟩
    · exact Sym2.mem_map.mpr ⟨v, hv2, rfl⟩
  · rintro ⟨hne, v, hv1, hv2⟩
    refine ⟨fun hc => hne (congrArg (Sym2.map ⇑σ) hc), ?_⟩
    obtain ⟨a, ha, hav⟩ := Sym2.mem_map.mp hv1
    obtain ⟨b, hb, hbv⟩ := Sym2.mem_map.mp hv2
    have hab : a = b := σ.injective (hav.trans hbv.symm)
    exact ⟨a, ha, hab ▸ hb⟩

/-- Claim C2: for every square real matrix and every permutation matrix
`P = permMatrix σ`, the canonical sorted spectrum of each of the five
representations — adjacency, Laplacian, normalized Laplacian, signless
Laplacian, line-graph adjacency — of `Pᵀ A P` is exactly equal (hence
equal within the comparison tolerance) to that of the representation
of `A`. -/
theorem spectra_invariant_under_permutation {n : ℕ}
    (A : Matrix (Fin n) (Fin n) ℝ) (σ : Equiv.Perm (Fin n)) :
    sorted_eigvals ((permMatrix σ)ᵀ * A * permMatrix σ) = sorted_eigvals A ∧
    sorted_eigvals (laplacian ((permMatrix σ)ᵀ * A * permMatrix σ)) =
      sorted_eigvals (laplacian A) ∧
    sorted_eigvals (normalized_laplacian ((permMatrix σ)ᵀ * A * permMatrix σ)) =
      sorted_eigvals (normalized_laplacian A) ∧
    sorted_eigvals (signless_laplacian ((permMatrix σ)ᵀ * A * permMatrix σ)) =
      sorted_eigvals (signless_laplacian A) ∧
    sorted_eigvals (lineGraphAdj ((permMatrix σ)ᵀ * A * permMatrix σ)) =
      sorted_eigvals (lineGraphAdj A) := by
  rw [permConj]
  refine ⟨sorted_eigvals_submatrix (σ : Fin n ≃ Fin n) A, ?_, ?_, ?_, ?_⟩
  · rw [laplacian_submatrix]
    exact sorted_eigvals_submatrix (σ : Fin n ≃ Fin n) (laplacian A)
  · rw [normalized_laplacian_submatrix]
    exact sorted_eigvals_submatrix (σ : Fin n ≃ Fin n) (normalized_laplacian A)
  · rw [signless_laplacian_submatrix]
    exact sorted_eigvals_submatrix (σ : Fin n ≃ Fin n) (signless_laplacian A)
  · rw [lineGraphAdj_submatrix]
    exact sorted_eigvals_submatrix (edgeEquiv σ A) (lineGraphAdj A)

theorem bdim_self (a : ℕ) : bdim a a = some a := by simp [bdim]

theorem bdim_eq_none_iff (a b : ℕ) :
    bdim a b = none ↔ a ≠ b ∧ a ≠ 1 ∧ b ≠ 1 := by
  unfold bdim
  split_ifs <;> simp_all

theorem length_npGrid {α : Type} (m k : ℕ) (f : ℕ → ℕ → α) :
    (npGrid m k f).length = m := by
  simp [npGrid]

theorem ncols_npGrid {α : Type} (m k : ℕ) (f : ℕ → ℕ → α) (hm : 0 < m) :
    ncols (npGrid m k f) = k := by
  obtain ⟨m', rfl⟩ := Nat.exists_eq_succ_of_ne_zero hm.ne'
  simp [npGrid, ncols, List.range_succ_eq_map]

theorem length_npDiag {α : Type} [Zero α] (d : List α) :
    (npDiag d : NDArray α).length = d.length := by
  simp [npDiag, length_npGrid]

theorem ncols_npDiag {α : Type} [Zero α] (d : List α) (hd : 0 < d.length) :
    ncols (npDiag d : NDArray α) = d.length :=
  ncols_npGrid _ _ _ hd

theorem length_rowSumsL {α : Type} [AddCommMonoid α] (A : NDArray α) :
    (rowSumsL A).length = A.length := by
  simp [rowSumsL]

theorem length_dInvSqrtL (A : NDArray ℝ) :
    (dInvSqrtL A).length = A.length := by
  simp [dInvSqrtL, length_rowSumsL]

theorem npBinop_eq_none_iff {α : Type} [Zero α] (f : α → α → α)
    (A B : NDArray α) :
    npBinop f A B = none ↔
      bdim A.length B.length = none ∨ bdim (ncols A) (ncols B) = none := by
  rcases h1 : bdim A.length B.length with _ | m <;>
    rcases h2 : bdim (ncols A) (ncols B) with _ | k <;>
      simp [npBinop, h1, h2]

theorem npBinop_eq_some {α : Type} [Zero α] (f : α → α → α)
    (A B : NDArray α) {m k : ℕ} (h1 : bdim A.length B.length = some m)
    (h2 : bdim (ncols A) (ncols B) = some k) :
    npBinop f A B = some (npGrid m k fun i j => f (bGet A i j) (bGet B i j)) := by
  simp [npBinop, h1, h2]

theorem laplacianL_eq_none_iff {α : Type} [LinearOrderedField α]
    (A : NDArray α) :
    laplacianL A = none ↔
      A.length ≠ ncols A ∧ A.length ≠ 1 ∧ ncols A ≠ 1 := by
  by_cases hA : A.length = 0
  · have hcols : ncols (npDiag (rowSumsL A)) = 0 := by
      simp [hA, ncols, npDiag, npGrid, length_rowSumsL,
        List.length_eq_zero.mp (by simp [length_rowSumsL, hA] :
          (rowSumsL A).length = 0)]
    rw [laplacianL, npBinop_eq_none_iff, length_npDiag, length_rowSumsL,
      bdim_self, hcols, hA]
    simp [bdim_eq_none_iff]
  · rw [laplacianL, npBinop_eq_none_iff, length_npDiag, length_rowSumsL,
      bdim_self, ncols_npDiag _ (by simp [length_rowSumsL]; omega),
      length_rowSumsL]
    simp [bdim_eq_none_iff]

theorem signless_laplacianL_eq_none_iff {α : Type} [LinearOrderedField α]
    (A : NDArray α) :
    signless_laplacianL A = none ↔
      A.length ≠ ncols A ∧ A.length ≠ 1 ∧ ncols A ≠ 1 := by
  by_cases hA : A.length = 0
  · have hcols : ncols (npDiag (rowSumsL A)) = 0 := by
      simp [hA, ncols, npDiag, npGrid, length_rowSumsL,
        List.length_eq_zero.mp (by simp [length_rowSumsL, hA] :
          (rowSumsL A).length = 0)]
    rw [signless_laplacianL, npBinop_eq_none_iff, length_npDiag,
      length_rowSumsL, bdim_self, hcols, hA]
    simp [bdim_eq_none_iff]
  · rw [signless_laplacianL, npBinop_eq_none_iff, length_npDiag,
      length_rowSumsL, bdim_self, ncols_npDiag _ (by simp [length_rowSumsL]; omega),
      length_rowSumsL]
    simp [bdim_eq_none_iff]

theorem npMatmul_eq_none_iff {α : Type} [LinearOrderedField α]
    (A B : NDArray α) : npMatmul A B = none ↔ ncols A ≠ B.length := by
  unfold npMatmul
  split_ifs with h <;> simp [h]

theorem npMatmul_eq_some {α : Type} [LinearOrderedField α]
    (A B : NDArray α) (h : ncols A = B.length) :
    npMatmul A B = some (npGrid A.length (ncols B) fun i j =>
      (((List.range (ncols A)).map fun l =>
        (List.getD A i []).getD l 0 * (List.getD B l []).getD j 0).sum)) := by
  rw [npMatmul, if_pos h]

/-- When the Laplacian broadcast produced a square `m × m` array (with
`m = A.length > 0`), both matrix products succeed. -/
theorem normalized_chain_isSome (A : NDArray ℝ) (hm : 0 < A.length)
    (L : NDArray ℝ) (hlen : L.length = A.length)
    (hcols : ncols L = A.length) :
    ((npMatmul (npDiag (dInvSqrtL A)) L).bind fun M =>
      npMatmul M (npDiag (dInvSqrtL A))).isSome = true := by
  have hd : (dInvSqrtL A).length = A.length := length_dInvSqrtL A
  have h1 : ncols (npDiag (dInvSqrtL A)) = L.length := by
    rw [ncols_npDiag _ (by omega), hd, hlen]
  rw [npMatmul_eq_some _ _ h1, Option.some_bind]
  have h2 : ncols (npGrid (npDiag (dInvSqrtL A) : NDArray ℝ).length (ncols L)
      fun i j => (((List.range (ncols (npDiag (dInvSqrtL A)))).map fun l =>
        (List.getD (npDiag (dInvSqrtL A)) i []).getD l 0 *
          (List.getD L l []).getD j 0).sum)) = (npDiag (dInvSqrtL A) : NDArray ℝ).length := by
    rw [ncols_npGrid _ _ _ (by rw [length_npDiag, hd]; omega), hcols,
      length_npDiag, hd]
  rw [npMatmul_eq_some _ _ h2]
  simp

/-- Claim C8 is false as stated: the `2 × 1` (non-square) array `[[1], [2]]`
does not make `laplacian` fail — numpy broadcasts the single column against
the `2 × 2` degree diagonal and silently returns a result. -/
theorem shape_error_counterexample :
    laplacianL ([[1], [2]] : NDArray ℚ) = some [[0, -1], [-2, 0]] := by
  have h1 : bdim ([[1], [2]] : NDArray ℚ).length 2 = some 2 := rfl
  have hL := npBinop_eq_some (α := ℚ) (· - ·)
    (npDiag (rowSumsL ([[1], [2]] : NDArray ℚ))) [[1], [2]]
    (m := 2) (k := 2) (by rfl) (by rfl)
  rw [laplacianL, hL]
  norm_num [npGrid, npDiag, bGet, rowSumsL, ncols, List.range_succ, List.getD]

/-- Claim C8, amended: on a nonempty rectangular array, `sorted_eigvals`
fails exactly on non-square input, but the derivations are saved by numpy
broadcasting in degenerate cases: `laplacian` and `signless_laplacian` fail
exactly when the input is non-square with more than one row and more than
one column, and `normalized_laplacian` fails exactly when the column count
differs from both the row count and `1`. -/
theorem shape_error_amended (A : NDArray ℝ) (hrect : IsRect A)
    (hne : 0 < A.length) :
    (sorted_eigvalsL A = none ↔ ncols A ≠ A.length) ∧
    (laplacianL A = none ↔
      A.length ≠ ncols A ∧ A.length ≠ 1 ∧ ncols A ≠ 1) ∧
    (signless_laplacianL A = none ↔
      A.length ≠ ncols A ∧ A.length ≠ 1 ∧ ncols A ≠ 1) ∧
    (normalized_laplacianL A = none ↔
      ncols A ≠ A.length ∧ ncols A ≠ 1) := by
  refine ⟨?_, laplacianL_eq_none_iff A, signless_laplacianL_eq_none_iff A, ?_⟩
  · unfold sorted_eigvalsL
    split_ifs with h <;> simp [h]
  have h1 : bdim (npDiag (rowSumsL A) : NDArray ℝ).length A.length =
      some A.length := by
    rw [length_npDiag, length_rowSumsL, bdim_self]
  have hDcols : ncols (npDiag (rowSumsL A) : NDArray ℝ) = A.length := by
    rw [ncols_npDiag _ (by rw [length_rowSumsL]; omega), length_rowSumsL]
  by_cases hsq : ncols A = A.length
  · -- square input: the whole chain succeeds
    have h2 : bdim (ncols (npDiag (rowSumsL A) : NDArray ℝ)) (ncols A) =
        some A.length := by rw [hDcols, hsq, bdim_self]
    have hL : laplacianL A = some (npGrid A.length A.length fun i j =>
        bGet (npDiag (rowSumsL A)) i j - bGet A i j) :=
      npBinop_eq_some (α := ℝ) (· - ·) (npDiag (rowSumsL A)) A h1 h2
    rw [normalized_laplacianL, hL, Option.some_bind]
    have hsome := normalized_chain_isSome A hne
      (npGrid A.length A.length fun i j =>
        bGet (npDiag (rowSumsL A)) i j - bGet A i j)
      (length_npGrid _ _ _) (ncols_npGrid _ _ _ hne)
    constructor
    · intro hnone
      rw [hnone] at hsome
      exact absurd hsome (by simp)
    · rintro ⟨hc, _⟩
      exact absurd hsq hc
  by_cases hk1 : ncols A = 1
  · -- single-column input: broadcasting makes everything succeed
    have hm1 : A.length ≠ 1 := fun h => hsq (hk1.trans h.symm)
    have h2 : bdim (ncols (npDiag (rowSumsL A) : NDArray ℝ)) (ncols A) =
        some A.length := by
      rw [hDcols, hk1]
      simp [bdim, hm1]
    have hL : laplacianL A = some (npGrid A.length A.length fun i j =>
        bGet (npDiag (rowSumsL A)) i j - bGet A i j) :=
      npBinop_eq_some (α := ℝ) (· - ·) (npDiag (rowSumsL A)) A h1 h2
    rw [normalized_laplacianL, hL, Option.some_bind]
    have hsome := normalized_chain_isSome A hne
      (npGrid A.length A.length fun i j =>
        bGet (npDiag (rowSumsL A)) i j - bGet A i j)
      (length_npGrid _ _ _) (ncols_npGrid _ _ _ hne)
    constructor
    · intro hnone
      rw [hnone] at hsome
      exact absurd hsome (by simp)
    · rintro ⟨_, hc⟩
      exact absurd hk1 hc
  by_cases hm1 : A.length = 1
  · -- single row, several columns: the second matrix product fails
    have h2 : bdim (ncols (npDiag (rowSumsL A) : NDArray ℝ)) (ncols A) =
        some (ncols A) := by
      have hk1s : (1 : ℕ) ≠ ncols A := fun h => hk1 h.symm
      rw [hDcols, hm1]
      simp [bdim, hk1s]
    have hL : laplacianL A = some (npGrid A.length (ncols A) fun i j =>
        bGet (npDiag (rowSumsL A)) i j - bGet A i j) :=
      npBinop_eq_some (α := ℝ) (· - ·) (npDiag (rowSumsL A)) A h1 h2
    rw [normalized_laplacianL, hL, Option.some_bind]
    have hdlen : (npDiag (dInvSqrtL A) : NDArray ℝ).length = A.length := by
      rw [length_npDiag, length_dInvSqrtL]
    have hmm1 := npMatmul_eq_some (npDiag (dInvSqrtL A))
      (npGrid A.length (ncols A) fun i j =>
        bGet (npDiag (rowSumsL A)) i j - bGet A i j)
      (by rw [ncols_npDiag _ (by rw [length_dInvSqrtL]; omega),
        length_dInvSqrtL, length_npGrid])
    rw [hmm1, Option.some_bind]
    have hmm2 : npMatmul (npGrid (npDiag (dInvSqrtL A) : NDArray ℝ).length
        (ncols (npGrid A.length (ncols A) fun i j =>
          bGet (npDiag (rowSumsL A)) i j - bGet A i j)) fun i j =>
        (((List.range (ncols (npDiag (dInvSqrtL A) : NDArray ℝ))).map fun l =>
          (List.getD (npDiag (dInvSqrtL A)) i []).getD l 0 *
            (List.getD (npGrid A.length (ncols A) fun i j =>
              bGet (npDiag (rowSumsL A)) i j - bGet A i j) l []).getD j 0).sum))
        (npDiag (dInvSqrtL A)) = none := by
      rw [npMatmul_eq_none_iff]
      rw [ncols_npGrid _ _ _ (by rw [hdlen]; omega),
        ncols_npGrid _ _ _ hne, hdlen, hm1]
      exact hk1
    rw [hmm2]
    simp [hsq, hk1]
  · -- genuinely incompatible shapes: the Laplacian subtraction fails
    have hnone : laplacianL A = none :=
      (laplacianL_eq_none_iff A).mpr ⟨fun h => hsq h.symm, hm1, hk1⟩
    rw [normalized_laplacianL, hnone]
    simp [hsq, hk1]

/-- Concrete instantiation of the amended claim C8 at the non-square
rectangular array `[[1], [2]]`. -/
theorem shape_error_amended_witness :
    (sorted_eigvalsL [[1], [2]] = none ↔ ncols ([[1], [2]] : NDArray ℝ) ≠ 2) ∧
    (laplacianL ([[1], [2]] : NDArray ℝ) = none ↔
      ([[1], [2]] : NDArray ℝ).length ≠ ncols ([[1], [2]] : NDArray ℝ) ∧
      ([[1], [2]] : NDArray ℝ).length ≠ 1 ∧
      ncols ([[1], [2]] : NDArray ℝ) ≠ 1) ∧
    (signless_laplacianL ([[1], [2]] : NDArray ℝ) = none ↔
      ([[1], [2]] : NDArray ℝ).length ≠ ncols ([[1], [2]] : NDArray ℝ) ∧
      ([[1], [2]] : NDArray ℝ).length ≠ 1 ∧
      ncols ([[1], [2]] : NDArray ℝ) ≠ 1) ∧
    (normalized_laplacianL ([[1], [2]] : NDArray ℝ) = none ↔
      ncols ([[1], [2]] : NDArray ℝ) ≠ 2 ∧
      ncols ([[1], [2]] : NDArray ℝ) ≠ 1) :=
  shape_error_amended [[1], [2]]
    (by
      intro r hr
      simp only [List.mem_cons, List.mem_singleton, List.not_mem_nil,
        or_false] at hr
      rcases hr with rfl | rfl <;> rfl)
    (by norm_num)

end Isomorfismo
